import Mathlib

/-!
Shallow embedding of the rust-sudoko repository (src/main.rs,
src/remove_solved.rs, src/disjoint_subset.rs).

A `Cell` is either `Solved d` (the Rust `Cell::Solved(usize)`) or
`Unsolved s` where `s : Finset (Fin 9)` models the 9-bit `FixedBitSet`
(bit `i` set means digit `i+1` is still possible).  Rust's fallible
`Cell::remove` (returning `Result<(), String>`) becomes a pure function
into `Except String Cell`; the `.unwrap()` calls of the two strategies
become `Except`-propagation, so a Rust panic is modelled as `.error`.
-/

namespace Sudoku

/-- Decidable equality for `Except`, used to state concrete facts about
the strategies' results. -/
instance {ε α : Type} [DecidableEq ε] [DecidableEq α] : DecidableEq (Except ε α) :=
  fun x y =>
    match x, y with
    | .ok a, .ok b =>
      if h : a = b then isTrue (by rw [h]) else
        isFalse (by intro hh; cases hh; exact h rfl)
    | .error a, .error b =>
      if h : a = b then isTrue (by rw [h]) else
        isFalse (by intro hh; cases hh; exact h rfl)
    | .ok _, .error _ => isFalse (by intro hh; cases hh)
    | .error _, .ok _ => isFalse (by intro hh; cases hh)

/-- Rust `enum Cell` from src/main.rs. -/
inductive Cell where
  | Solved : Nat → Cell
  | Unsolved : Finset (Fin 9) → Cell
deriving DecidableEq

/-- Rust `Cell::new()`: an unsolved cell that can hold any digit
(`FixedBitSet` of capacity 9 with every bit set). -/
def Cell.new : Cell := .Unsolved Finset.univ

/-- Rust `bitset.ones().next().unwrap() + 1`: the lowest set bit, as a digit.
The `.unwrap()` is only reached when the set is known nonempty; the
`getD 0` default mirrors that it cannot fire. -/
def onesNextDigit (s : Finset (Fin 9)) : Nat :=
  ((s.min.map Fin.val).getD 0) + 1

/-- Rust `Cell::from_digits`: build a cell from an iterator of digits.  The
Rust `assert!(digit >= 1 && digit <= 9)` (a panic on violation) is
modelled by returning `none`.  A resulting one-element set is
normalised to `Solved`. -/
def Cell.from_digits (digits : List Nat) : Option Cell := do
  let s ← digits.foldlM
    (fun (s : Finset (Fin 9)) d =>
      if h : 1 ≤ d ∧ d ≤ 9 then
        some (insert (⟨d - 1, by omega⟩ : Fin 9) s)
      else
        none) (∅ : Finset (Fin 9))
  if s.card = 1 then
    some (.Solved (onesNextDigit s))
  else
    some (.Unsolved s)

/-- Rust `Cell::remove`: remove a digit from the set of possible digits.
Out-of-range digits and removing a solved cell's own digit are errors;
an unsolved cell left with exactly one candidate becomes `Solved`. -/
def Cell.remove (c : Cell) (digit : Nat) : Except String Cell :=
  if h : digit < 1 ∨ digit > 9 then
    .error "Cell::remove called with invalid digit"
  else
    match c with
    | .Unsolved s =>
      let s' := s.erase ⟨digit - 1, by omega⟩
      if s'.card = 1 then
        .ok (.Solved (onesNextDigit s'))
      else
        .ok (.Unsolved s')
    | .Solved d =>
      if d = digit then
        .error "Cell::remove asked to remove solved digit"
      else
        .ok (.Solved d)

/-- Rust `Cell::count`: the number of possible digits of this cell. -/
def Cell.count : Cell → Nat
  | .Solved _ => 1
  | .Unsolved s => s.card

/-- Rust `Cell::digits`: the set of digits this cell could be. -/
def Cell.digits : Cell → Finset Nat
  | .Solved v => {v}
  | .Unsolved s => s.image (fun i => i.val + 1)

/-- Rust `impl From<char> for Cell`: characters `'0'..='9'` become
`Solved(ch.to_digit(10))`; anything else becomes `Cell::new()`. -/
def Cell.fromChar (ch : Char) : Cell :=
  if '0' ≤ ch ∧ ch ≤ '9' then
    .Solved (ch.toNat - '0'.toNat)
  else
    Cell.new

/-- Rust `Board::rows()`: the nine rows, as lists of cell indices. -/
def rows : List (List Nat) :=
  [ [0,1,2,3,4,5,6,7,8],
    [9,10,11,12,13,14,15,16,17],
    [18,19,20,21,22,23,24,25,26],
    [27,28,29,30,31,32,33,34,35],
    [36,37,38,39,40,41,42,43,44],
    [45,46,47,48,49,50,51,52,53],
    [54,55,56,57,58,59,60,61,62],
    [63,64,65,66,67,68,69,70,71],
    [72,73,74,75,76,77,78,79,80] ]

/-- Rust `Board::columns()`: the nine columns, as lists of cell indices. -/
def columns : List (List Nat) :=
  [ [0,9,18,27,36,45,54,63,72],
    [1,10,19,28,37,46,55,64,73],
    [2,11,20,29,38,47,56,65,74],
    [3,12,21,30,39,48,57,66,75],
    [4,13,22,31,40,49,58,67,76],
    [5,14,23,32,41,50,59,68,77],
    [6,15,24,33,42,51,60,69,78],
    [7,16,25,34,43,52,61,70,79],
    [8,17,26,35,44,53,62,71,80] ]

/-- Rust `Board::boxes()`: the nine 3x3 boxes, as lists of cell indices. -/
def boxes : List (List Nat) :=
  [ [0,1,2,9,10,11,18,19,20],
    [3,4,5,12,13,14,21,22,23],
    [6,7,8,15,16,17,24,25,26],
    [27,28,29,36,37,38,45,46,47],
    [30,31,32,39,40,41,48,49,50],
    [33,34,35,42,43,44,51,52,53],
    [54,55,56,63,64,65,72,73,74],
    [57,58,59,66,67,68,75,76,77],
    [60,61,62,69,70,71,78,79,80] ]

/-- Rust `Board::all_groups()`: rows, then columns, then boxes. -/
def all_groups : List (List Nat) := rows ++ columns ++ boxes

/-- Rust `Board::row_neighbors(idx)`: the other cells in `idx`'s row. -/
def row_neighbors (idx : Nat) : List Nat :=
  (List.range' (idx - idx % 9) 9).filter (fun n => n ≠ idx)

/-- Rust `Board::column_neighbors(idx)`: the other cells in `idx`'s column. -/
def column_neighbors (idx : Nat) : List Nat :=
  (((List.range 9).map (fun row => idx % 9 + row * 9))).filter (fun n => n ≠ idx)

/-- Rust `Board::box_neighbors(idx)`: the other cells in `idx`'s 3x3 box. -/
def box_neighbors (idx : Nat) : List Nat :=
  let boxRow := idx / 9 - (idx / 9) % 3
  let boxCol := idx % 9 - (idx % 9) % 3
  (((List.range 3).flatMap
      (fun row => (List.range 3).map (fun col => (row + boxRow) * 9 + boxCol + col)))).filter
    (fun n => n ≠ idx)

/-- Insertion step for `sortNat`. -/
def insertSorted (a : Nat) : List Nat → List Nat
  | [] => [a]
  | b :: r => if a ≤ b then a :: b :: r else b :: insertSorted a r

/-- Rust `Vec::sort_unstable` on a vector of indices: produce the
sorted list (insertion sort; Lean's `List.mergeSort` is defined by
well-founded recursion, which the kernel cannot evaluate). -/
def sortNat (l : List Nat) : List Nat := l.foldr insertSorted []

/-- Rust `Vec::dedup`: drop consecutive duplicates. -/
def dedupConsec : List Nat → List Nat
  | [] => []
  | [a] => [a]
  | a :: b :: rest =>
    if a = b then dedupConsec (b :: rest) else a :: dedupConsec (b :: rest)

/-- Rust `Board::all_neighbors(idx)`: concatenate the three neighbor lists,
`sort_unstable`, then `dedup`. -/
def all_neighbors (idx : Nat) : List Nat :=
  dedupConsec (sortNat (row_neighbors idx ++ column_neighbors idx ++ box_neighbors idx))

/-- Rust `struct Board`, holding 81 cells; the fixed length 81 is carried
as a hypothesis where a theorem needs it. -/
structure Board where
  cells : List Cell
deriving DecidableEq

/-- Cell lookup, `board.cells[idx]`.  Rust's array indexing cannot go
out of bounds for the indices the program uses; the `Cell.new` default
is never reached on 81-cell boards. -/
def cellAt (cells : List Cell) (idx : Nat) : Cell :=
  cells.getD idx Cell.new

/-- Outcome of `Board::from_str`: `Ok(board)`, `Err(ParseBoardError)`,
or a panic from `chars().nth(idx).unwrap()` on a too-short char
sequence. -/
inductive BoardParse where
  | ok : Board → BoardParse
  | parseError : BoardParse
  | panicked : BoardParse
deriving DecidableEq

/-- Rust `str::len()`: the length in UTF-8 bytes, not characters. -/
def byteLen (s : List Char) : Nat := (s.map Char.utf8Size).sum

/-- Rust `impl FromStr for Board`: check `s.len() == 81` (bytes), then build
the 81 cells from `s.chars().nth(idx).unwrap()`. -/
def Board.from_str (s : List Char) : BoardParse :=
  if byteLen s = 81 then
    match (List.range 81).mapM (fun idx => s.get? idx) with
    | some chars => .ok ⟨chars.map Cell.fromChar⟩
    | none => .panicked
  else
    .parseError

/-- One step `result.cells[n].remove(digit).unwrap()`: read the cell at
board index `n`, remove `digit`, write the cell back.  The Rust
`.unwrap()` panic is the `Except` error. -/
def rmStep (digit : Nat) (cs : List Cell) (n : Nat) : Except String (List Cell) :=
  (Cell.remove (cellAt cs n) digit).map (fun c => cs.set n c)

/-- The inner loop of `RemoveSolvedFromNeighbors::apply`: remove
`digit` from every cell listed in `targets`. -/
def removeFromCells (digit : Nat) (targets : List Nat) (cs : List Cell) :
    Except String (List Cell) :=
  targets.foldlM (rmStep digit) cs

/-- One iteration of the `for idx in 0..81` loop of
`RemoveSolvedFromNeighbors::apply`: if the *input* board has a solved
cell at `idx`, remove its digit from all neighbors in the working
cells. -/
def rsnStep (b : Board) (cs : List Cell) (idx : Nat) : Except String (List Cell) :=
  match cellAt b.cells idx with
  | .Solved digit => removeFromCells digit (all_neighbors idx) cs
  | .Unsolved _ => .ok cs

/-- Rust `RemoveSolvedFromNeighbors::apply`: clone the board, then for each
solved cell of the input remove its digit from all neighbors of the
clone. -/
def RemoveSolvedFromNeighbors.apply (board : Board) : Except String Board :=
  ((List.range 81).foldlM (rsnStep board) board.cells).map Board.mk

/-- Rust `bitset.ones()`: the set bits of a 9-bit set, in ascending order. -/
def onesList (s : Finset (Fin 9)) : List (Fin 9) :=
  (List.finRange 9).filter (fun i => i ∈ s)

/-- The `for idx in 0..9` loop of `NakedPair::apply` for one digit of a
found pair: remove the digit from every cell of the group other than
the two pair positions. -/
def digitRound (g : List Nat) (idx1 idx2 : Nat) (digit : Nat)
    (cs : List Cell) : Except String (List Cell) :=
  (List.range 9).foldlM
    (fun cs' idx =>
      if idx ≠ idx1 ∧ idx ≠ idx2 then
        rmStep digit cs' (g.getD idx 0)
      else
        .ok cs') cs

/-- The `for digit_idx in bitset.ones()` loop of `NakedPair::apply`
once a matching pair has been found: one `digitRound` per digit of the
pair's (stale) bitset, ascending. -/
def pairEliminate (g : List Nat) (s : Finset (Fin 9)) (idx1 idx2 : Nat)
    (cs : List Cell) : Except String (List Cell) :=
  (onesList s).foldlM (fun cs' d => digitRound g idx1 idx2 (d.val + 1) cs') cs

/-- One iteration of the `for idx2 in idx1+1..9` scan of
`NakedPair::apply`: compare the current cell at group position `idx2`
with the (stale) clone `cell1 = Unsolved s`; on a match, eliminate the
pair's digits. -/
def pairScanStep (g : List Nat) (s : Finset (Fin 9)) (idx1 : Nat)
    (cs : List Cell) (idx2 : Nat) : Except String (List Cell) :=
  if cellAt cs (g.getD idx2 0) = .Unsolved s then
    pairEliminate g s idx1 idx2 cs
  else
    .ok cs

/-- The `for idx2 in idx1+1..9` scan of `NakedPair::apply`. -/
def pairScan (g : List Nat) (s : Finset (Fin 9)) (idx1 : Nat)
    (cs : List Cell) : Except String (List Cell) :=
  (List.range' (idx1 + 1) (8 - idx1)).foldlM (pairScanStep g s idx1) cs

/-- One iteration of the `for idx1 in 0..8` loop of
`NakedPair::apply`. -/
def npStep (g : List Nat) (cs : List Cell) (idx1 : Nat) : Except String (List Cell) :=
  match cellAt cs (g.getD idx1 0) with
  | .Unsolved s => if s.card = 2 then pairScan g s idx1 cs else .ok cs
  | .Solved _ => .ok cs

/-- The body of the `for group in Board::all_groups()` loop of
`NakedPair::apply`: process one group. -/
def processGroup (cs : List Cell) (g : List Nat) : Except String (List Cell) :=
  (List.range 8).foldlM (npStep g) cs

/-- Rust `NakedPair::apply`: clone the board, then process each of the 27
groups in order. -/
def NakedPair.apply (board : Board) : Except String Board :=
  (all_groups.foldlM processGroup board.cells).map Board.mk

/-- Extract the board from a parse result (defaulting on failure);
used only to name concrete boards in theorem statements. -/
def parsedBoard (p : BoardParse) : Board :=
  match p with
  | .ok b => b
  | _ => ⟨[]⟩

/-- Extract the board from a strategy result (defaulting on failure);
used only to name concrete boards in theorem statements. -/
def resultBoard (e : Except String Board) : Board :=
  match e with
  | .ok b => b
  | _ => ⟨[]⟩

/-- Whether an `Except` is an error. -/
def exceptIsErr {ε α : Type} : Except ε α → Bool
  | .error _ => true
  | .ok _ => false

/-- Whether a cell is `Solved`. -/
def Cell.isSolved : Cell → Bool
  | .Solved _ => true
  | .Unsolved _ => false

/-- The puzzle string of the naked-pair scenario (also the string in
`tests::test_naked_pair`). -/
def scenarioStr : List Char :=
  "4..27.6..798156234.2.84...7237468951849531726561792843.82.15479.7..243....4.87..2".toList

/-- The parsed naked-pair scenario board. -/
def scenarioBoard : Board := parsedBoard (Board.from_str scenarioStr)

/-- The scenario board after `RemoveSolvedFromNeighbors`. -/
def scenarioRSN : Board := resultBoard (RemoveSolvedFromNeighbors.apply scenarioBoard)

/-- The scenario board after `RemoveSolvedFromNeighbors` then `NakedPair`. -/
def scenarioNP : Board := resultBoard (NakedPair.apply scenarioRSN)

/-- An 81-character string whose first character is the digit zero. -/
def zeroStr : List Char := '0' :: List.replicate 80 '.'

/-- The board parsed from `zeroStr`. -/
def zeroBoard : Board := parsedBoard (Board.from_str zeroStr)

/-- A board with the same solved digit in two neighboring cells
(cells 0 and 1 of row 0); `RemoveSolvedFromNeighbors` hits the
`remove(5)`-on-`Solved(5)` error here, i.e. the Rust code panics. -/
def dupSolvedBoard : Board :=
  ⟨[Cell.Solved 5, Cell.Solved 5] ++ List.replicate 79 Cell.new⟩

/-- A board whose first three cells all have the candidate set `{1,2}`;
eliminating the pair digits from the third copy empties it, so
`NakedPair` hits an elimination error (a Rust panic). -/
def triplePairBoard : Board :=
  ⟨[Cell.Unsolved {0, 1}, Cell.Unsolved {0, 1}, Cell.Unsolved {0, 1}]
    ++ List.replicate 78 Cell.new⟩

/-- A board where row 0 has exactly one naked pair (digits 1,2 at cells
0 and 1) but column 0 holds a second naked pair (digits 1,3 at cells 9
and 18) whose elimination later solves both row-0 pair cells. -/
def crossPairBoard : Board :=
  ⟨[Cell.Unsolved {0, 1}, Cell.Unsolved {0, 1}] ++ List.replicate 7 Cell.new
    ++ [Cell.Unsolved {0, 2}] ++ List.replicate 8 Cell.new
    ++ [Cell.Unsolved {0, 2}] ++ List.replicate 62 Cell.new⟩

/-- Result of `NakedPair::apply` on `crossPairBoard`. -/
def crossPairResult : Board := resultBoard (NakedPair.apply crossPairBoard)

/-- An 81-character, 162-byte string (every character is a two-byte
cent sign). -/
def multibyteStr : List Char := List.replicate 81 '¢'

/-- A 27-character, 81-byte string (every character is a three-byte
euro sign). -/
def euroStr : List Char := List.replicate 27 '€'

/-- State of a cell right after a successful `remove(digit)` call:
the digit is gone from its digit set, and the cell is never left as an
unsolved cell with exactly one candidate (such a cell would have been
promoted to `Solved`).  Every later successful `remove` call keeps this
state. -/
def scrubbed (digit : Nat) (c : Cell) : Prop :=
  digit ∉ Cell.digits c ∧ ∀ s, c = Cell.Unsolved s → s.card ≠ 1

/-- Invariant driving the single-group naked-pair theorem: the two
pair cells at group positions `p1`, `p2` hold exactly the candidate set
`s`, and every other cell of the group excludes both of the pair's
digits. -/
def pairInv (g : List Nat) (p1 p2 : Nat) (s : Finset (Fin 9)) (cs : List Cell) : Prop :=
  cellAt cs (g.getD p1 0) = .Unsolved s ∧
  cellAt cs (g.getD p2 0) = .Unsolved s ∧
  ∀ i, i < 9 → i ≠ p1 → i ≠ p2 → ∀ d ∈ s, (d.val + 1) ∉ Cell.digits (cellAt cs (g.getD i 0))

/-- A 9-cell row group (row 0). -/
def rowGroup : List Nat := [0, 1, 2, 3, 4, 5, 6, 7, 8]

/-- Cells with a single naked pair (digits 1,2) at positions 0 and 1 of
row 0, everything else blank. -/
def pairCells : List Cell :=
  [Cell.Unsolved {0, 1}, Cell.Unsolved {0, 1}] ++ List.replicate 79 Cell.new

/-- Result of processing row 0 of `pairCells` (defaulting on failure). -/
def pairCellsResult : List Cell :=
  match processGroup pairCells rowGroup with
  | .ok cs => cs
  | _ => []

/-! ## Claim theorems -/

/-- C10: `Cell::from_digits` on an empty collection returns an
`Unsolved` cell with an empty candidate set, whose `count()` is 0; the
cardinality-at-least-1 invariant is not enforced. -/
theorem c10_from_digits_empty :
    Cell.from_digits [] = some (Cell.Unsolved ∅) ∧
    Cell.count (Cell.Unsolved ∅) = 0 := by
  exact ⟨rfl, rfl⟩

/-! ## Helper lemmas about `Cell.remove` -/

/-- Unfolding `Cell.remove` on an unsolved cell with an in-range digit. -/
theorem remove_unsolved_eq (s : Finset (Fin 9)) (digit : Nat)
    (h1 : 1 ≤ digit) (h9 : digit ≤ 9) :
    (Cell.Unsolved s).remove digit =
      (if (s.erase ⟨digit - 1, by omega⟩).card = 1 then
        .ok (.Solved (onesNextDigit (s.erase ⟨digit - 1, by omega⟩)))
      else
        .ok (.Unsolved (s.erase ⟨digit - 1, by omega⟩))) := by
  rw [Cell.remove, dif_neg (by omega)]

/-- Unfolding `Cell.remove` on a solved cell with an in-range digit. -/
theorem remove_solved_eq (d : Nat) (digit : Nat)
    (h1 : 1 ≤ digit) (h9 : digit ≤ 9) :
    (Cell.Solved d).remove digit =
      (if d = digit then
        .error "Cell::remove asked to remove solved digit"
      else
        .ok (.Solved d)) := by
  rw [Cell.remove, dif_neg (by omega)]

/-- Unfolding `Cell.remove` on an out-of-range digit. -/
theorem remove_oob_eq (c : Cell) (digit : Nat) (h : digit < 1 ∨ digit > 9) :
    c.remove digit = .error "Cell::remove called with invalid digit" := by
  rw [Cell.remove, dif_pos h]

/-- Value of `onesNextDigit` on a singleton bitset. -/
theorem onesNextDigit_singleton : ∀ m : Fin 9, onesNextDigit {m} = m.val + 1 := by
  decide

/-- C6: `Cell::remove` returns an error exactly when the digit is
outside `[1,9]` or the cell is solved with that very digit; on
`Solved(d)` with an in-range digit other than `d` the call succeeds and
leaves the cell as `Solved(d)`.  (The second clause presupposes an
in-range digit, as in the spec's error ordering: the range check comes
first.) -/
theorem c6_cell_remove_spec (c : Cell) (digit : Nat) :
    (exceptIsErr (c.remove digit) = true ↔
      digit < 1 ∨ 9 < digit ∨ c = Cell.Solved digit) ∧
    (∀ d : Nat, c = Cell.Solved d → digit ≠ d → 1 ≤ digit → digit ≤ 9 →
      c.remove digit = .ok (Cell.Solved d)) := by
  constructor
  · by_cases h : digit < 1 ∨ digit > 9
    · rw [remove_oob_eq c digit h]
      simpa [exceptIsErr] using by omega
    · push_neg at h
      match c with
      | .Unsolved s =>
        rw [remove_unsolved_eq s digit h.1 h.2]
        constructor
        · intro hco
          exfalso
          by_cases hc : (s.erase ⟨digit - 1, by omega⟩).card = 1 <;>
            simp [hc, exceptIsErr] at hco
        · rintro (h' | h' | h') <;> first | omega | exact absurd h' (by simp)
      | .Solved d =>
        rw [remove_solved_eq d digit h.1 h.2]
        by_cases hd : d = digit
        · subst hd
          simp [exceptIsErr]
        · simp only [if_neg hd, exceptIsErr]
          constructor
          · intro hco; exact absurd hco (by simp)
          · rintro (h' | h' | h')
            · omega
            · omega
            · exact absurd (by injection h') hd
  · rintro d rfl hne h1 h9
    rw [remove_solved_eq d digit h1 h9, if_neg (fun hh => hne hh.symm)]

/-- C6 witness: removing the in-range digit 3 from `Solved(5)` succeeds
and leaves the cell unchanged. -/
theorem c6_cell_remove_spec_witness :
    (Cell.Solved 5).remove 3 = .ok (Cell.Solved 5) :=
  (c6_cell_remove_spec (Cell.Solved 5) 3).2 5 rfl (by decide) (by decide) (by decide)

/-- C7: removing a valid digit from an `Unsolved` cell succeeds,
removes the digit from the candidate set, and if exactly one candidate
remains the cell becomes `Solved` with that remaining digit. -/
theorem c7_remove_from_unsolved (s : Finset (Fin 9)) (digit : Nat)
    (h1 : 1 ≤ digit) (h9 : digit ≤ 9) :
    ∃ c', (Cell.Unsolved s).remove digit = .ok c' ∧
      Cell.digits c' = (Cell.digits (Cell.Unsolved s)).erase digit ∧
      ∀ v : Nat, (Cell.digits (Cell.Unsolved s)).erase digit = {v} →
        c' = Cell.Solved v := by
  have hinj : Function.Injective (fun i : Fin 9 => i.val + 1) := by
    intro a b hab
    simp only [] at hab
    omega
  have hA : (Cell.digits (Cell.Unsolved s)).erase digit =
      (s.erase ⟨digit - 1, by omega⟩).image (fun i => i.val + 1) := by
    rw [Cell.digits, Finset.image_erase hinj]
    congr 1
    show digit = (⟨digit - 1, by omega⟩ : Fin 9).val + 1
    simp
    omega
  rw [remove_unsolved_eq s digit h1 h9]
  by_cases hc : (s.erase ⟨digit - 1, by omega⟩).card = 1
  · obtain ⟨m, hm⟩ := Finset.card_eq_one.mp hc
    refine ⟨_, by rw [if_pos hc], ?_, ?_⟩
    · rw [hA, hm, onesNextDigit_singleton m, Cell.digits, Finset.image_singleton]
    · intro v hv
      rw [hA, hm, Finset.image_singleton] at hv
      rw [hm, onesNextDigit_singleton m, Finset.singleton_inj.mp hv]
  · refine ⟨_, by rw [if_neg hc], ?_, ?_⟩
    · rw [Cell.digits, hA]
    intro v hv
    exfalso
    apply hc
    have : ((s.erase ⟨digit - 1, by omega⟩).image (fun i => i.val + 1)).card = 1 := by
      rw [← hA, hv, Finset.card_singleton]
    rwa [Finset.card_image_of_injective _ hinj] at this

/-- C7 witness: removing digit 5 from the fully-open cell removes it
from the candidates (and, the set still having 8 candidates, the cell
stays unsolved). -/
theorem c7_remove_from_unsolved_witness :
    ∃ c', (Cell.Unsolved Finset.univ).remove 5 = .ok c' ∧
      Cell.digits c' = (Cell.digits (Cell.Unsolved Finset.univ)).erase 5 ∧
      ∀ v : Nat, (Cell.digits (Cell.Unsolved Finset.univ)).erase 5 = {v} →
        c' = Cell.Solved v :=
  c7_remove_from_unsolved Finset.univ 5 (by decide) (by decide)

/-- Looking up every index of a list of in-range indices succeeds. -/
theorem mapM_get?_total (s : List Char) :
    ∀ l : List Nat, (∀ i ∈ l, i < s.length) →
      ∃ cs, l.mapM (fun idx => s.get? idx) = some cs ∧ cs.length = l.length := by
  intro l
  induction l with
  | nil => intro _; exact ⟨[], rfl, rfl⟩
  | cons i t ih =>
    intro h
    obtain ⟨cs, hcs, hlen⟩ := ih (fun j hj => h j (List.mem_cons_of_mem i hj))
    have hi : i < s.length := h i (List.mem_cons_self i t)
    refine ⟨s.get ⟨i, hi⟩ :: cs, ?_, by simp [hlen]⟩
    rw [List.mapM_cons, List.get?_eq_get hi, hcs]
    rfl

/-- C9, amended: parsing fails with the parse error exactly when the
input's UTF-8 byte length is not 81 (Rust `str::len()` counts bytes);
for inputs with byte length 81 and at least 81 characters —
equivalently 81 one-byte characters — parsing succeeds with a full
81-cell board.  (An 81-byte input with fewer characters instead panics
on the character lookup, as the euro-sign example shows.) -/
theorem c9_from_str_amended :
    (∀ s : List Char, Board.from_str s = .parseError ↔ byteLen s ≠ 81) ∧
    (∀ s : List Char, byteLen s = 81 → 81 ≤ s.length →
      ∃ b : Board, Board.from_str s = .ok b ∧ b.cells.length = 81) ∧
    Board.from_str euroStr = .panicked := by
  refine ⟨?_, ?_, by decide⟩
  · intro s
    by_cases hb : byteLen s = 81
    · rw [Board.from_str, if_pos hb]
      rcases hmap : (List.range 81).mapM (fun idx => s.get? idx) with _ | cs <;>
        simp [hb]
    · rw [Board.from_str, if_neg hb]
      simp [hb]
  · intro s hb hlen
    obtain ⟨cs, hcs, hcslen⟩ := mapM_get?_total s (List.range 81)
      (fun i hi => lt_of_lt_of_le (List.mem_range.mp hi) hlen)
    refine ⟨⟨cs.map Cell.fromChar⟩, ?_, by simp [hcslen]⟩
    rw [Board.from_str, if_pos hb, hcs]

/-! ## Generic lemmas about `foldlM` over `Except` -/

/-- A successful `foldlM` preserves any invariant that each successful
step preserves. -/
theorem foldlM_preserves {α β : Type} (f : β → α → Except String β) (P : β → Prop) :
    ∀ (l : List α) (b0 bf : β),
      (∀ b a b', a ∈ l → P b → f b a = .ok b' → P b') →
      l.foldlM f b0 = .ok bf → P b0 → P bf := by
  intro l
  induction l with
  | nil =>
    intro b0 bf _ hfold h0
    cases hfold
    exact h0
  | cons a t ih =>
    intro b0 bf hstep hfold h0
    rw [List.foldlM_cons] at hfold
    rcases hfa : f b0 a with e | b1 <;> rw [hfa] at hfold
    · cases hfold
    · exact ih b1 bf (fun b x b' hx => hstep b x b' (List.mem_cons_of_mem a hx))
        hfold (hstep b0 a b1 (List.mem_cons_self a t) h0 hfa)

/-- A fold all of whose steps fix the state returns the state. -/
theorem foldlM_id {α β : Type} (f : β → α → Except String β) :
    ∀ (l : List α) (b : β), (∀ a ∈ l, f b a = .ok b) → l.foldlM f b = .ok b := by
  intro l
  induction l with
  | nil => intro b _; rfl
  | cons a t ih =>
    intro b hstep
    rw [List.foldlM_cons, hstep a (List.mem_cons_self a t)]
    exact ih b (fun x hx => hstep x (List.mem_cons_of_mem a hx))

/-- A successful fold of an appended list passes through an
intermediate success. -/
theorem foldlM_append_ok {α β : Type} (f : β → α → Except String β)
    (l₁ l₂ : List α) (b bf : β) :
    (l₁ ++ l₂).foldlM f b = .ok bf →
      ∃ m, l₁.foldlM f b = .ok m ∧ l₂.foldlM f m = .ok bf := by
  intro h
  rw [List.foldlM_append] at h
  rcases h1 : l₁.foldlM f b with e | m <;> rw [h1] at h
  · cases h
  · exact ⟨m, rfl, h⟩

/-- A successful fold of a cons passes through a successful first step. -/
theorem foldlM_cons_ok {α β : Type} (f : β → α → Except String β)
    (a : α) (l : List α) (b bf : β) :
    (a :: l).foldlM f b = .ok bf →
      ∃ m, f b a = .ok m ∧ l.foldlM f m = .ok bf := by
  intro h
  rw [List.foldlM_cons] at h
  rcases h1 : f b a with e | m <;> rw [h1] at h
  · cases h
  · exact ⟨m, rfl, h⟩

/-- If some step of a successful fold establishes an invariant that all
later successful steps preserve, the invariant holds at the end. -/
theorem foldlM_establishes {α β : Type} (f : β → α → Except String β)
    (P : β → Prop) (a : α) :
    ∀ l : List α, a ∈ l →
      (∀ b b', f b a = .ok b' → P b') →
      (∀ b x b', x ∈ l → P b → f b x = .ok b' → P b') →
      ∀ b0 bf, l.foldlM f b0 = .ok bf → P bf := by
  intro l
  induction l with
  | nil => intro h; cases h
  | cons x t ih =>
    intro hmem hest hpres b0 bf hfold
    obtain ⟨b1, hx, ht⟩ := foldlM_cons_ok f x t b0 bf hfold
    rcases List.mem_cons.mp hmem with rfl | hat
    · exact foldlM_preserves f P t b1 bf
        (fun b y b' hy => hpres b y b' (List.mem_cons_of_mem _ hy)) ht (hest b0 b1 hx)
    · exact ih hat hest
        (fun b y b' hy => hpres b y b' (List.mem_cons_of_mem _ hy)) b1 bf ht

/-! ## Lemmas about list update and `cellAt` -/

/-- Characterisation of `cellAt` after a `List.set`. -/
theorem cellAt_set (l : List Cell) (n m : Nat) (c : Cell) :
    cellAt (l.set n c) m = if n = m ∧ n < l.length then c else cellAt l m := by
  induction l generalizing n m with
  | nil => simp [cellAt]
  | cons a t ih =>
    cases n with
    | zero =>
      cases m with
      | zero => simp [cellAt]
      | succ m' => simp [cellAt, List.getD]
    | succ n' =>
      cases m with
      | zero => simp [cellAt, List.getD]
      | succ m' =>
        have := ih n' m'
        simp only [List.set, cellAt, List.getD_cons_succ, List.length_cons] at this ⊢
        rw [this]
        by_cases h : n' = m' ∧ n' < t.length
        · rw [if_pos h, if_pos ⟨by omega, by omega⟩]
        · rw [if_neg h, if_neg (by omega)]

/-- Setting an index keeps the list length. -/
theorem length_set_cells (l : List Cell) (n : Nat) (c : Cell) :
    (l.set n c).length = l.length :=
  List.length_set l n c

/-! ## Lemmas about `Cell.remove` -/

/-- A successful removal has an in-range digit. -/
theorem remove_ok_bounds (c : Cell) (digit : Nat) (c' : Cell) :
    c.remove digit = .ok c' → 1 ≤ digit ∧ digit ≤ 9 := by
  intro h
  by_cases hb : digit < 1 ∨ digit > 9
  · rw [remove_oob_eq c digit hb] at h
    cases h
  · omega

/-- A successful removal on a solved cell is a no-op with a digit other
than the solved one. -/
theorem remove_solved_ok (d digit : Nat) (c' : Cell) :
    (Cell.Solved d).remove digit = .ok c' → c' = .Solved d ∧ d ≠ digit := by
  intro h
  obtain ⟨h1, h9⟩ := remove_ok_bounds _ _ _ h
  rw [remove_solved_eq d digit h1 h9] at h
  by_cases hd : d = digit
  · rw [if_pos hd] at h
    cases h
  · rw [if_neg hd] at h
    cases h
    exact ⟨rfl, hd⟩

/-- Removal never adds digits. -/
theorem remove_digits_subset (c : Cell) (digit : Nat) (c' : Cell) :
    c.remove digit = .ok c' → Cell.digits c' ⊆ Cell.digits c := by
  intro h
  obtain ⟨h1, h9⟩ := remove_ok_bounds _ _ _ h
  match c with
  | .Solved d =>
    obtain ⟨rfl, _⟩ := remove_solved_ok d digit c' h
    exact subset_rfl
  | .Unsolved s =>
    rw [remove_unsolved_eq s digit h1 h9] at h
    by_cases hc : (s.erase ⟨digit - 1, by omega⟩).card = 1
    · rw [if_pos hc] at h
      cases h
      obtain ⟨m, hm⟩ := Finset.card_eq_one.mp hc
      rw [hm, onesNextDigit_singleton m]
      intro x hx
      rw [Cell.digits, Finset.mem_singleton] at hx
      subst hx
      exact Finset.mem_image_of_mem _ (Finset.mem_of_mem_erase (hm ▸ Finset.mem_singleton_self m))
    · rw [if_neg hc] at h
      cases h
      exact Finset.image_subset_image (Finset.erase_subset _ _)

/-! ## Lemmas about `scrubbed` -/

/-- Membership of a digit in the digit-image of a bitset. -/
theorem digit_mem_image (s : Finset (Fin 9)) (digit : Nat)
    (h1 : 1 ≤ digit) (h9 : digit ≤ 9) :
    digit ∈ s.image (fun i => i.val + 1) ↔ (⟨digit - 1, by omega⟩ : Fin 9) ∈ s := by
  constructor
  · intro hm
    obtain ⟨i, hi, hv⟩ := Finset.mem_image.mp hm
    have : i = ⟨digit - 1, by omega⟩ := Fin.ext (by simp; omega)
    rwa [← this]
  · intro hf
    exact Finset.mem_image.mpr ⟨_, hf, by simp; omega⟩

/-- A successful `remove(digit)` call leaves the target cell
`scrubbed digit`. -/
theorem remove_establishes_scrubbed (c : Cell) (digit : Nat) (c' : Cell) :
    c.remove digit = .ok c' → scrubbed digit c' := by
  intro h
  obtain ⟨h1, h9⟩ := remove_ok_bounds _ _ _ h
  match c with
  | .Solved d =>
    obtain ⟨rfl, hne⟩ := remove_solved_ok d digit c' h
    refine ⟨?_, fun s hs => by cases hs⟩
    rw [Cell.digits, Finset.mem_singleton]
    exact fun hh => hne hh.symm
  | .Unsolved s =>
    rw [remove_unsolved_eq s digit h1 h9] at h
    by_cases hc : (s.erase ⟨digit - 1, by omega⟩).card = 1
    · rw [if_pos hc] at h
      cases h
      obtain ⟨m, hm⟩ := Finset.card_eq_one.mp hc
      have hmne : m ≠ ⟨digit - 1, by omega⟩ := by
        intro hh
        exact Finset.not_mem_erase _ s (hh ▸ (hm ▸ Finset.mem_singleton_self m))
      refine ⟨?_, fun s0 hs0 => by cases hs0⟩
      rw [hm, onesNextDigit_singleton m, Cell.digits, Finset.mem_singleton]
      intro hh
      exact hmne (Fin.ext (by simp; omega))
    · rw [if_neg hc] at h
      cases h
      refine ⟨?_, fun s0 hs0 => by cases hs0; exact hc⟩
      rw [Cell.digits, digit_mem_image _ digit h1 h9]
      exact Finset.not_mem_erase _ s

/-- Every later successful removal (of any digit) keeps a cell
`scrubbed digit`. -/
theorem remove_preserves_scrubbed (digit : Nat) (c : Cell) (d' : Nat) (c' : Cell) :
    c.remove d' = .ok c' → scrubbed digit c → scrubbed digit c' := by
  intro h hsc
  obtain ⟨h1, h9⟩ := remove_ok_bounds _ _ _ h
  match c with
  | .Solved d =>
    obtain ⟨rfl, _⟩ := remove_solved_ok d d' c' h
    exact hsc
  | .Unsolved s =>
    obtain ⟨hdig, hcard⟩ := hsc
    rw [Cell.digits] at hdig
    rw [remove_unsolved_eq s d' h1 h9] at h
    by_cases hc : (s.erase ⟨d' - 1, by omega⟩).card = 1
    · rw [if_pos hc] at h
      cases h
      obtain ⟨m, hm⟩ := Finset.card_eq_one.mp hc
      have hms : m ∈ s :=
        Finset.mem_of_mem_erase (hm ▸ Finset.mem_singleton_self m)
      refine ⟨?_, fun s0 hs0 => by cases hs0⟩
      rw [hm, onesNextDigit_singleton m, Cell.digits, Finset.mem_singleton]
      intro hh
      exact hdig (hh ▸ Finset.mem_image_of_mem _ hms)
    · rw [if_neg hc] at h
      cases h
      refine ⟨?_, fun s0 hs0 => by cases hs0; exact hc⟩
      rw [Cell.digits]
      intro hh
      exact hdig (Finset.image_subset_image (Finset.erase_subset _ _) hh)

/-- Removing a digit from a cell already `scrubbed` of it is the
identity. -/
theorem scrubbed_remove_id (digit : Nat) (c : Cell)
    (h1 : 1 ≤ digit) (h9 : digit ≤ 9) :
    scrubbed digit c → c.remove digit = .ok c := by
  intro hsc
  obtain ⟨hdig, hcard⟩ := hsc
  match c with
  | .Solved d =>
    rw [Cell.digits, Finset.mem_singleton] at hdig
    rw [remove_solved_eq d digit h1 h9, if_neg (fun hh => hdig hh.symm)]
  | .Unsolved s =>
    rw [Cell.digits, digit_mem_image _ digit h1 h9] at hdig
    rw [remove_unsolved_eq s digit h1 h9]
    rw [Finset.erase_eq_of_not_mem hdig, if_neg (hcard s rfl)]

/-! ## Lemmas about `rmStep` -/

/-- Elimination form of a successful `rmStep`. -/
theorem rmStep_ok_elim (digit : Nat) (cs : List Cell) (n : Nat) (cs' : List Cell) :
    rmStep digit cs n = .ok cs' →
      ∃ c', (cellAt cs n).remove digit = .ok c' ∧ cs' = cs.set n c' := by
  intro h
  rw [rmStep] at h
  rcases hr : (cellAt cs n).remove digit with e | c' <;> rw [hr] at h
  · cases h
  · cases h
    exact ⟨c', rfl, rfl⟩

/-- Successful `rmStep` keeps the length. -/
theorem rmStep_length (digit : Nat) (cs : List Cell) (n : Nat) (cs' : List Cell) :
    rmStep digit cs n = .ok cs' → cs'.length = cs.length := by
  intro h
  obtain ⟨c', _, rfl⟩ := rmStep_ok_elim digit cs n cs' h
  exact List.length_set cs n c'

/-- A cell property preserved by successful removals is preserved
pointwise by `rmStep`. -/
theorem rmStep_preserves_at (P : Cell → Prop)
    (hpres : ∀ c d' c', c.remove d' = .ok c' → P c → P c') :
    ∀ (digit : Nat) (cs : List Cell) (n m : Nat) (cs' : List Cell),
      rmStep digit cs n = .ok cs' → P (cellAt cs m) → P (cellAt cs' m) := by
  intro digit cs n m cs' h hP
  obtain ⟨c', hr, rfl⟩ := rmStep_ok_elim digit cs n cs' h
  rw [cellAt_set]
  by_cases hnm : n = m ∧ n < cs.length
  · rw [if_pos hnm]
    exact hpres _ digit _ (hnm.1 ▸ hr) (hnm.1 ▸ hP)
  · rwa [if_neg hnm]

/-- A successful `rmStep` at an in-range position leaves that cell
`scrubbed` of the removed digit. -/
theorem rmStep_establishes_scrubbed (digit : Nat) (cs : List Cell) (n : Nat)
    (cs' : List Cell) (hn : n < cs.length) :
    rmStep digit cs n = .ok cs' → scrubbed digit (cellAt cs' n) := by
  intro h
  obtain ⟨c', hr, rfl⟩ := rmStep_ok_elim digit cs n cs' h
  rw [cellAt_set, if_pos ⟨rfl, hn⟩]
  exact remove_establishes_scrubbed _ digit _ hr

/-- A successful `rmStep` does not change other positions. -/
theorem rmStep_cellAt_ne (digit : Nat) (cs : List Cell) (n m : Nat)
    (cs' : List Cell) (hne : n ≠ m) :
    rmStep digit cs n = .ok cs' → cellAt cs' m = cellAt cs m := by
  intro h
  obtain ⟨c', _, rfl⟩ := rmStep_ok_elim digit cs n cs' h
  rw [cellAt_set, if_neg (fun hh => hne hh.1)]

/-! ## Facts about the 27 groups -/

/-- A `getD` lookup is a member of the list, or the default. -/
theorem getD_mem_or_default : ∀ (l : List Nat) (i : Nat), l.getD i 0 ∈ l ∨ l.getD i 0 = 0 := by
  intro l
  induction l with
  | nil => intro i; right; rfl
  | cons a t ih =>
    intro i
    cases i with
    | zero => left; exact List.mem_cons_self a t
    | succ j =>
      rcases ih j with h | h
      · left
        rw [List.getD_cons_succ]
        exact List.mem_cons_of_mem a h
      · right
        rw [List.getD_cons_succ]
        exact h

/-- Each of the 27 groups has 9 distinct entries, all below 81. -/
theorem all_groups_facts :
    ∀ g ∈ all_groups, g.length = 9 ∧ g.Nodup ∧ ∀ x ∈ g, x < 81 := by
  decide

/-- Each group entry (seen through `getD`) is a valid board index. -/
theorem group_getD_lt (g : List Nat) (hg : g ∈ all_groups) (i : Nat) :
    g.getD i 0 < 81 := by
  rcases getD_mem_or_default g i with h | h
  · exact (all_groups_facts g hg).2.2 _ h
  · omega

/-- Distinct positions of a group point at distinct board indices. -/
theorem group_getD_inj :
    ∀ g ∈ all_groups, ∀ i j : Fin 9, i ≠ j → g.getD i.val 0 ≠ g.getD j.val 0 := by
  decide

/-- C2, amended: each strategy's `apply` never mutates its input and
either returns a board or fails on an internal elimination error; it is
not total — witness the counterexample — but it is total (indeed the
identity) on boards with no solved cell (for
`RemoveSolvedFromNeighbors`), respectively with no two-candidate cell
(for `NakedPair`), since then no elimination ever fires. -/
theorem c2_apply_total_amended (b : Board) :
    ((∀ i, i < 81 → (cellAt b.cells i).isSolved = false) →
      RemoveSolvedFromNeighbors.apply b = .ok b) ∧
    ((∀ i, i < 81 → Cell.count (cellAt b.cells i) ≠ 2) →
      NakedPair.apply b = .ok b) := by
  constructor
  · intro h
    rw [RemoveSolvedFromNeighbors.apply]
    have hfold : (List.range 81).foldlM (rsnStep b) b.cells = .ok b.cells := by
      apply foldlM_id
      intro idx hidx
      have hi := List.mem_range.mp hidx
      have hs := h idx hi
      rw [rsnStep]
      rcases hc : cellAt b.cells idx with d | s
      · rw [hc, Cell.isSolved] at hs
        cases hs
      · rfl
    rw [hfold]
    rfl
  · intro h
    rw [NakedPair.apply]
    have hfold : all_groups.foldlM processGroup b.cells = .ok b.cells := by
      apply foldlM_id
      intro g hg
      rw [processGroup]
      apply foldlM_id
      intro idx1 _
      have hcnt := h (g.getD idx1 0) (group_getD_lt g hg idx1)
      rw [npStep]
      rcases hc : cellAt b.cells (g.getD idx1 0) with d | s
      · rfl
      · rw [hc, Cell.count] at hcnt
        show (if s.card = 2 then pairScan g s idx1 b.cells else Except.ok b.cells) =
          Except.ok b.cells
        rw [if_neg hcnt]
    rw [hfold]
    rfl

/-- C2 amended, witness: on the all-blank board both strategies succeed
and return the board unchanged. -/
theorem c2_apply_total_amended_witness :
    RemoveSolvedFromNeighbors.apply ⟨List.replicate 81 Cell.new⟩ =
      .ok ⟨List.replicate 81 Cell.new⟩ ∧
    NakedPair.apply ⟨List.replicate 81 Cell.new⟩ =
      .ok ⟨List.replicate 81 Cell.new⟩ :=
  ⟨(c2_apply_total_amended ⟨List.replicate 81 Cell.new⟩).1 (by decide),
   (c2_apply_total_amended ⟨List.replicate 81 Cell.new⟩).2 (by decide)⟩

/-! ## Infrastructure for the idempotence and naked-pair proofs -/

/-- Variant of `foldlM_establishes` threading an auxiliary invariant
`R` (used to know intermediate lengths when the establishing step
runs). -/
theorem foldlM_establishes_with {α β : Type} (f : β → α → Except String β)
    (R P : β → Prop) (a : α) :
    ∀ l : List α, a ∈ l →
      (∀ b x b', x ∈ l → R b → f b x = .ok b' → R b') →
      (∀ b b', R b → f b a = .ok b' → P b') →
      (∀ b x b', x ∈ l → P b → f b x = .ok b' → P b') →
      ∀ b0 bf, R b0 → l.foldlM f b0 = .ok bf → P bf := by
  intro l
  induction l with
  | nil => intro h; cases h
  | cons x t ih =>
    intro hmem hR hest hpres b0 bf hR0 hfold
    obtain ⟨b1, hx, ht⟩ := foldlM_cons_ok f x t b0 bf hfold
    rcases List.mem_cons.mp hmem with rfl | hat
    · exact foldlM_preserves f P t b1 bf
        (fun b y b' hy => hpres b y b' (List.mem_cons_of_mem _ hy)) ht
        (hest b0 b1 hR0 hx)
    · exact ih hat
        (fun b y b' hy => hR b y b' (List.mem_cons_of_mem _ hy))
        hest
        (fun b y b' hy => hpres b y b' (List.mem_cons_of_mem _ hy))
        b1 bf (hR b0 x b1 (List.mem_cons_self x t) hR0 hx) ht

/-- Successful `removeFromCells` keeps the length. -/
theorem removeFromCells_length (digit : Nat) (targets : List Nat)
    (cs cs' : List Cell) :
    removeFromCells digit targets cs = .ok cs' → cs'.length = cs.length := by
  intro h
  exact foldlM_preserves (rmStep digit) (fun x => x.length = cs.length) targets cs cs'
    (fun bb n bb' _ hbb hstep => (rmStep_length digit bb n bb' hstep).trans hbb)
    h rfl

/-- Successful `rsnStep` keeps the length. -/
theorem rsnStep_length (b : Board) (cs : List Cell) (idx : Nat) (cs' : List Cell) :
    rsnStep b cs idx = .ok cs' → cs'.length = cs.length := by
  intro h
  rcases hc : cellAt b.cells idx with d | s <;> simp only [rsnStep, hc] at h
  · exact removeFromCells_length d _ cs cs' h
  · cases h
    rfl

/-- A cell property preserved by successful removals is preserved
pointwise by `removeFromCells`. -/
theorem removeFromCells_preserves_at (P : Cell → Prop)
    (hpres : ∀ c d' c', c.remove d' = .ok c' → P c → P c')
    (digit : Nat) (targets : List Nat) (cs cs' : List Cell) (m : Nat) :
    removeFromCells digit targets cs = .ok cs' →
      P (cellAt cs m) → P (cellAt cs' m) := by
  intro h
  exact foldlM_preserves (rmStep digit) (fun x => P (cellAt x m)) targets cs cs'
    (fun bb n bb' _ hbb hstep => rmStep_preserves_at P hpres digit bb n m bb' hstep hbb)
    h

/-- A cell property preserved by successful removals is preserved
pointwise by `rsnStep`. -/
theorem rsnStep_preserves_at (P : Cell → Prop)
    (hpres : ∀ c d' c', c.remove d' = .ok c' → P c → P c')
    (b : Board) (cs : List Cell) (idx : Nat) (cs' : List Cell) (m : Nat) :
    rsnStep b cs idx = .ok cs' → P (cellAt cs m) → P (cellAt cs' m) := by
  intro h
  rcases hc : cellAt b.cells idx with d | s <;> simp only [rsnStep, hc] at h
  · exact removeFromCells_preserves_at P hpres d _ cs cs' m h
  · cases h
    exact id

/-- Setting a position of a list to its current value is the identity. -/
theorem set_cellAt_self : ∀ (l : List Cell) (n : Nat), n < l.length →
    l.set n (cellAt l n) = l := by
  intro l
  induction l with
  | nil => intro n h; cases h
  | cons a t ih =>
    intro n h
    cases n with
    | zero => rfl
    | succ m =>
      show a :: t.set m (cellAt t m) = a :: t
      rw [ih m (by simpa using h)]

/-- Every neighbor index is a valid board index. -/
theorem all_neighbors_lt : ∀ idx : Fin 81, ∀ n ∈ all_neighbors idx.val, n < 81 := by
  decide

/-- Every cell of an 81-cell board has at least one neighbor. -/
theorem all_neighbors_ne_nil : ∀ idx : Fin 81, all_neighbors idx.val ≠ [] := by
  decide

/-- Elimination form of a successful `RemoveSolvedFromNeighbors.apply`. -/
theorem rsnApply_ok_elim (b r : Board) :
    RemoveSolvedFromNeighbors.apply b = .ok r →
      (List.range 81).foldlM (rsnStep b) b.cells = .ok r.cells := by
  intro h
  rw [RemoveSolvedFromNeighbors.apply] at h
  rcases hf : (List.range 81).foldlM (rsnStep b) b.cells with e | cs <;> rw [hf] at h
  · cases h
  · cases h
    rfl

/-- The digit of a nonempty elimination round is in range. -/
theorem removeFromCells_ok_bounds (digit : Nat) (targets : List Nat)
    (cs cs' : List Cell) (hne : targets ≠ []) :
    removeFromCells digit targets cs = .ok cs' → 1 ≤ digit ∧ digit ≤ 9 := by
  intro h
  match targets, hne with
  | n :: rest, _ =>
    obtain ⟨m1, hstep, _⟩ := foldlM_cons_ok _ n rest cs cs' h
    obtain ⟨c', hr, _⟩ := rmStep_ok_elim digit cs n m1 hstep
    exact remove_ok_bounds _ _ _ hr

/-- After one round of `removeFromCells`, every target cell is
`scrubbed` of the digit. -/
theorem removeFromCells_scrubs (digit : Nat) (targets : List Nat)
    (cs cs' : List Cell) (hlen : cs.length = 81)
    (htlt : ∀ n ∈ targets, n < 81) (n : Nat) (hn : n ∈ targets) :
    removeFromCells digit targets cs = .ok cs' → scrubbed digit (cellAt cs' n) := by
  intro h
  exact foldlM_establishes_with (rmStep digit) (fun x => x.length = 81)
    (fun x => scrubbed digit (cellAt x n)) n targets hn
    (fun bb m bb' _ hbb hstep => (rmStep_length digit bb m bb' hstep).trans hbb)
    (fun bb bb' hbb hstep =>
      rmStep_establishes_scrubbed digit bb n bb' (by rw [hbb]; exact htlt n hn) hstep)
    (fun bb m bb' _ hbb hstep =>
      rmStep_preserves_at (scrubbed digit)
        (fun c d' c' hr hp => remove_preserves_scrubbed digit c d' c' hr hp)
        digit bb m n bb' hstep hbb)
    cs cs' hlen h

/-- Along a successful `RemoveSolvedFromNeighbors` run, solved cells of
the input stay solved with the same digit. -/
theorem rsn_run_solved_preserved (b : Board) (cs' : List Cell)
    (hfold : (List.range 81).foldlM (rsnStep b) b.cells = .ok cs')
    (i : Nat) (d : Nat) (hb : cellAt b.cells i = .Solved d) :
    cellAt cs' i = .Solved d := by
  exact foldlM_preserves (rsnStep b) (fun cs => cellAt cs i = .Solved d)
    (List.range 81) b.cells cs'
    (fun bb idx bb' _ hbb hstep =>
      rsnStep_preserves_at (fun c => c = .Solved d)
        (fun c d' c' hr hc => by
          subst hc
          exact (remove_solved_ok d d' c' hr).1)
        b bb idx bb' i hstep hbb)
    hfold hb

/-- After a successful `RemoveSolvedFromNeighbors` run, each solved
input cell's digit is in range, and every neighbor of that cell is
`scrubbed` of the digit. -/
theorem rsn_run_scrubs (b : Board) (cs' : List Cell) (hlen : b.cells.length = 81)
    (hfold : (List.range 81).foldlM (rsnStep b) b.cells = .ok cs')
    (idx : Nat) (hidx : idx < 81) (d : Nat) (hb : cellAt b.cells idx = .Solved d) :
    (1 ≤ d ∧ d ≤ 9) ∧ ∀ n ∈ all_neighbors idx, scrubbed d (cellAt cs' n) := by
  constructor
  · exact foldlM_establishes (rsnStep b) (fun _ => 1 ≤ d ∧ d ≤ 9) idx
      (List.range 81) (List.mem_range.mpr hidx)
      (fun bb bb' hstep => by
        simp only [rsnStep, hb] at hstep
        exact removeFromCells_ok_bounds d (all_neighbors idx) bb bb'
          (all_neighbors_ne_nil ⟨idx, hidx⟩) hstep)
      (fun _ _ _ _ hp _ => hp)
      b.cells cs' hfold
  · intro n hn
    exact foldlM_establishes_with (rsnStep b) (fun x => x.length = 81)
      (fun x => scrubbed d (cellAt x n)) idx
      (List.range 81) (List.mem_range.mpr hidx)
      (fun bb i bb' _ hbb hstep => (rsnStep_length b bb i bb' hstep).trans hbb)
      (fun bb bb' hbb hstep => by
        simp only [rsnStep, hb] at hstep
        exact removeFromCells_scrubs d (all_neighbors idx) bb bb' hbb
          (all_neighbors_lt ⟨idx, hidx⟩) n hn hstep)
      (fun bb i bb' _ hbb hstep =>
        rsnStep_preserves_at (scrubbed d)
          (fun c d' c' hr hp => remove_preserves_scrubbed d c d' c' hr hp)
          b bb i bb' n hstep hbb)
      b.cells cs' hlen hfold

/-- C8: if one application of `RemoveSolvedFromNeighbors` succeeds and
turns no unsolved cell into a solved one, a second application returns
the same board unchanged. -/
theorem c8_rsn_idempotent (b r : Board) (hlen : b.cells.length = 81)
    (hok : RemoveSolvedFromNeighbors.apply b = .ok r)
    (hnonew : ∀ i, i < 81 → (cellAt b.cells i).isSolved = false →
      (cellAt r.cells i).isSolved = false) :
    RemoveSolvedFromNeighbors.apply r = .ok r := by
  have hfold := rsnApply_ok_elim b r hok
  have hrlen : r.cells.length = 81 :=
    foldlM_preserves (rsnStep b) (fun cs => cs.length = 81) (List.range 81)
      b.cells r.cells
      (fun bb i bb' _ hbb hstep => (rsnStep_length b bb i bb' hstep).trans hbb)
      hfold hlen
  rw [RemoveSolvedFromNeighbors.apply]
  have hid : (List.range 81).foldlM (rsnStep r) r.cells = .ok r.cells := by
    apply foldlM_id
    intro idx hidx
    have hidx81 := List.mem_range.mp hidx
    rcases hc : cellAt r.cells idx with d | s
    · have hbsolved : cellAt b.cells idx = .Solved d := by
        rcases hbc : cellAt b.cells idx with e | s0
        · have he := rsn_run_solved_preserved b r.cells hfold idx e hbc
          rw [hc] at he
          injection he with he'
          rw [he']
        · have hfalse := hnonew idx hidx81 (by rw [hbc]; rfl)
          rw [hc, Cell.isSolved] at hfalse
          cases hfalse
      simp only [rsnStep, hc]
      apply foldlM_id
      intro n hn
      obtain ⟨hbounds, hscrall⟩ := rsn_run_scrubs b r.cells hlen hfold idx hidx81 d hbsolved
      have hscr := hscrall n hn
      rw [rmStep, scrubbed_remove_id d (cellAt r.cells n) hbounds.1 hbounds.2 hscr]
      show Except.ok (r.cells.set n (cellAt r.cells n)) = Except.ok r.cells
      rw [set_cellAt_self r.cells n (by rw [hrlen]; exact all_neighbors_lt ⟨idx, hidx81⟩ n hn)]
    · simp only [rsnStep, hc]
  rw [hid]
  rfl

/-- C8 witness: on the all-blank board the first pass succeeds, creates
no newly solved cell, and the second pass returns the board
unchanged. -/
theorem c8_rsn_idempotent_witness :
    RemoveSolvedFromNeighbors.apply ⟨List.replicate 81 Cell.new⟩ =
      .ok ⟨List.replicate 81 Cell.new⟩ :=
  c8_rsn_idempotent ⟨List.replicate 81 Cell.new⟩ ⟨List.replicate 81 Cell.new⟩
    (by decide) (by decide) (by decide)

/-! ## Infrastructure for the single-group naked-pair theorem -/

/-- Splitting `range'` at an inner element. -/
theorem range'_split (s a n : Nat) (h : a < n) :
    List.range' s n =
      List.range' s a ++ (s + a) :: List.range' (s + a + 1) (n - a - 1) := by
  have h1 := List.range'_append_1 s a (n - a)
  have h2 : n - a = (n - a - 1) + 1 := by omega
  have h3 : (n - a) + a = n := by omega
  rw [h3] at h1
  rw [← h1, h2, List.range'_succ]
  have h4 : n - a - 1 + 1 - 1 = n - a - 1 := by omega
  rw [h4]

/-- Splitting `range` at an inner element. -/
theorem range_split (a n : Nat) (h : a < n) :
    List.range n = List.range a ++ a :: List.range' (a + 1) (n - a - 1) := by
  rw [List.range_eq_range' n, List.range_eq_range' a, range'_split 0 a n h]
  simp

/-- Membership in `onesList` is membership in the bitset. -/
theorem mem_onesList (s : Finset (Fin 9)) (x : Fin 9) :
    x ∈ onesList s ↔ x ∈ s := by
  simp [onesList, List.mem_filter, List.mem_finRange]

/-- A digit value belongs to a bitset's digit image exactly when the
bit does. -/
theorem digit_image_mem (t : Finset (Fin 9)) (d : Fin 9) :
    d.val + 1 ∈ t.image (fun i => i.val + 1) ↔ d ∈ t := by
  constructor
  · intro hm
    obtain ⟨i, hi, hv⟩ := Finset.mem_image.mp hm
    have : i = d := Fin.ext (by omega)
    rwa [← this]
  · intro hd
    exact Finset.mem_image_of_mem _ hd

/-- Version of `group_getD_inj` for bounded naturals. -/
theorem group_getD_inj' (g : List Nat) (hg : g ∈ all_groups) (i j : Nat)
    (hi : i < 9) (hj : j < 9) (hne : i ≠ j) :
    g.getD i 0 ≠ g.getD j 0 :=
  group_getD_inj g hg ⟨i, hi⟩ ⟨j, hj⟩ (Fin.ne_of_val_ne hne)

/-- Pointwise preservation by `rmStep` for a property stable under
removal of one specific digit. -/
theorem rmStep_preserves_at_digit (P : Cell → Prop) (digit : Nat)
    (hpres : ∀ c c', c.remove digit = .ok c' → P c → P c') :
    ∀ (cs : List Cell) (n m : Nat) (cs' : List Cell),
      rmStep digit cs n = .ok cs' → P (cellAt cs m) → P (cellAt cs' m) := by
  intro cs n m cs' h hP
  obtain ⟨c', hr, rfl⟩ := rmStep_ok_elim digit cs n cs' h
  rw [cellAt_set]
  by_cases hnm : n = m ∧ n < cs.length
  · rw [if_pos hnm]
    exact hpres _ _ (hnm.1 ▸ hr) (hnm.1 ▸ hP)
  · rwa [if_neg hnm]

/-- A `digitRound` keeps the length. -/
theorem digitRound_length (g : List Nat) (idx1 idx2 digit : Nat)
    (cs cs' : List Cell) :
    digitRound g idx1 idx2 digit cs = .ok cs' → cs'.length = cs.length := by
  intro h
  refine foldlM_preserves _ (fun x => x.length = cs.length) _ cs cs'
    (fun bb idx bb' _ hbb hstep => ?_) h rfl
  by_cases hcond : idx ≠ idx1 ∧ idx ≠ idx2
  · rw [if_pos hcond] at hstep
    exact (rmStep_length digit bb _ bb' hstep).trans hbb
  · rw [if_neg hcond] at hstep
    cases hstep
    exact hbb

/-- Pointwise preservation by a `digitRound` for a property stable
under removal of its digit. -/
theorem digitRound_preserves_at (P : Cell → Prop) (digit : Nat)
    (hpres : ∀ c c', c.remove digit = .ok c' → P c → P c')
    (g : List Nat) (idx1 idx2 : Nat) (cs cs' : List Cell) (m : Nat) :
    digitRound g idx1 idx2 digit cs = .ok cs' →
      P (cellAt cs m) → P (cellAt cs' m) := by
  intro h
  refine foldlM_preserves _ (fun x => P (cellAt x m)) _ cs cs'
    (fun bb idx bb' _ hbb hstep => ?_) h
  by_cases hcond : idx ≠ idx1 ∧ idx ≠ idx2
  · rw [if_pos hcond] at hstep
    exact rmStep_preserves_at_digit P digit hpres bb _ m bb' hstep hbb
  · rw [if_neg hcond] at hstep
    cases hstep
    exact hbb

/-- A `digitRound` leaves every non-exempt cell of the group `scrubbed`
of its digit. -/
theorem digitRound_scrubs (g : List Nat) (hg : g ∈ all_groups)
    (idx1 idx2 digit : Nat) (cs cs' : List Cell) (hlen : cs.length = 81)
    (i : Nat) (hi : i < 9) (hi1 : i ≠ idx1) (hi2 : i ≠ idx2) :
    digitRound g idx1 idx2 digit cs = .ok cs' →
      scrubbed digit (cellAt cs' (g.getD i 0)) := by
  intro h
  refine foldlM_establishes_with _ (fun x => x.length = 81)
    (fun x => scrubbed digit (cellAt x (g.getD i 0))) i
    (List.range 9) (List.mem_range.mpr hi)
    (fun bb idx bb' _ hbb hstep => ?_)
    (fun bb bb' hbb hstep => ?_)
    (fun bb idx bb' _ hbb hstep => ?_)
    cs cs' hlen h
  · by_cases hcond : idx ≠ idx1 ∧ idx ≠ idx2
    · rw [if_pos hcond] at hstep
      exact (rmStep_length digit bb _ bb' hstep).trans hbb
    · rw [if_neg hcond] at hstep
      cases hstep
      exact hbb
  · rw [if_pos ⟨hi1, hi2⟩] at hstep
    exact rmStep_establishes_scrubbed digit bb (g.getD i 0) bb'
      (by rw [hbb]; exact group_getD_lt g hg i) hstep
  · by_cases hcond : idx ≠ idx1 ∧ idx ≠ idx2
    · rw [if_pos hcond] at hstep
      exact rmStep_preserves_at (scrubbed digit)
        (fun c d' c' hr hp => remove_preserves_scrubbed digit c d' c' hr hp)
        digit bb _ (g.getD i 0) bb' hstep hbb
    · rw [if_neg hcond] at hstep
      cases hstep
      exact hbb

/-- A `digitRound` never touches the two exempt positions. -/
theorem digitRound_keeps_exempt (g : List Nat) (hg : g ∈ all_groups)
    (idx1 idx2 digit : Nat) (h1 : idx1 < 9) (h2 : idx2 < 9)
    (cs cs' : List Cell) (p : Nat) (hp : p = idx1 ∨ p = idx2) :
    digitRound g idx1 idx2 digit cs = .ok cs' →
      cellAt cs' (g.getD p 0) = cellAt cs (g.getD p 0) := by
  intro h
  refine foldlM_preserves _ (fun x => cellAt x (g.getD p 0) = cellAt cs (g.getD p 0))
    _ cs cs' (fun bb idx bb' hidx hbb hstep => ?_) h rfl
  by_cases hcond : idx ≠ idx1 ∧ idx ≠ idx2
  · rw [if_pos hcond] at hstep
    have hpne : idx ≠ p := by
      rcases hp with rfl | rfl
      · exact hcond.1
      · exact hcond.2
    have hplt : p < 9 := by
      rcases hp with rfl | rfl
      · exact h1
      · exact h2
    rw [← hbb]
    exact rmStep_cellAt_ne digit bb _ (g.getD p 0) bb'
      (group_getD_inj' g hg idx p (List.mem_range.mp hidx) hplt hpne) hstep
  · rw [if_neg hcond] at hstep
    cases hstep
    exact hbb

/-- A `pairEliminate` keeps the length. -/
theorem pairEliminate_length (g : List Nat) (t : Finset (Fin 9))
    (idx1 idx2 : Nat) (cs cs' : List Cell) :
    pairEliminate g t idx1 idx2 cs = .ok cs' → cs'.length = cs.length := by
  intro h
  exact foldlM_preserves _ (fun x => x.length = cs.length) _ cs cs'
    (fun bb d bb' _ hbb hstep => (digitRound_length g idx1 idx2 _ bb bb' hstep).trans hbb)
    h rfl

/-- Pointwise preservation by `pairEliminate` for a property stable
under removal of any of the pair's digits. -/
theorem pairEliminate_preserves_at (P : Cell → Prop) (g : List Nat)
    (t : Finset (Fin 9)) (idx1 idx2 : Nat) (cs cs' : List Cell) (m : Nat)
    (hpres : ∀ d : Fin 9, d ∈ t → ∀ c c', c.remove (d.val + 1) = .ok c' → P c → P c') :
    pairEliminate g t idx1 idx2 cs = .ok cs' →
      P (cellAt cs m) → P (cellAt cs' m) := by
  intro h
  exact foldlM_preserves _ (fun x => P (cellAt x m)) _ cs cs'
    (fun bb d bb' hd hbb hstep =>
      digitRound_preserves_at P (d.val + 1) (hpres d ((mem_onesList t d).mp hd))
        g idx1 idx2 bb bb' m hstep hbb)
    h

/-- After a `pairEliminate`, every non-exempt cell of the group is
`scrubbed` of both pair digits. -/
theorem pairEliminate_scrubs (g : List Nat) (hg : g ∈ all_groups)
    (t : Finset (Fin 9)) (idx1 idx2 : Nat) (cs cs' : List Cell)
    (hlen : cs.length = 81) (i : Nat) (hi : i < 9) (hi1 : i ≠ idx1) (hi2 : i ≠ idx2) :
    pairEliminate g t idx1 idx2 cs = .ok cs' →
      ∀ d ∈ t, scrubbed (d.val + 1) (cellAt cs' (g.getD i 0)) := by
  intro h d hd
  exact foldlM_establishes_with (fun bb (e : Fin 9) => digitRound g idx1 idx2 (e.val + 1) bb)
    (fun x => x.length = 81)
    (fun x => scrubbed (d.val + 1) (cellAt x (g.getD i 0))) d
    (onesList t) ((mem_onesList t d).mpr hd)
    (fun bb e bb' _ hbb hstep => (digitRound_length g idx1 idx2 _ bb bb' hstep).trans hbb)
    (fun bb bb' hbb hstep =>
      digitRound_scrubs g hg idx1 idx2 (d.val + 1) bb bb' hbb i hi hi1 hi2 hstep)
    (fun bb e bb' _ hbb hstep =>
      digitRound_preserves_at (scrubbed (d.val + 1)) (e.val + 1)
        (fun c c' hr hp => remove_preserves_scrubbed (d.val + 1) c (e.val + 1) c' hr hp)
        g idx1 idx2 bb bb' (g.getD i 0) hstep hbb)
    cs cs' hlen h

/-- A `pairEliminate` never touches the two exempt positions. -/
theorem pairEliminate_keeps_exempt (g : List Nat) (hg : g ∈ all_groups)
    (t : Finset (Fin 9)) (idx1 idx2 : Nat) (h1 : idx1 < 9) (h2 : idx2 < 9)
    (cs cs' : List Cell) (p : Nat) (hp : p = idx1 ∨ p = idx2) :
    pairEliminate g t idx1 idx2 cs = .ok cs' →
      cellAt cs' (g.getD p 0) = cellAt cs (g.getD p 0) := by
  intro h
  exact foldlM_preserves _ (fun x => cellAt x (g.getD p 0) = cellAt cs (g.getD p 0))
    _ cs cs'
    (fun bb d bb' _ hbb hstep =>
      (digitRound_keeps_exempt g hg idx1 idx2 (d.val + 1) h1 h2 bb bb' p hp hstep).trans hbb)
    h rfl

/-- Removing a digit that is not in a 2-candidate set leaves a cell
holding exactly that set unchanged. -/
theorem remove_keeps_pair_cell (s : Finset (Fin 9)) (hcard : s.card = 2)
    (d : Fin 9) (hd : d ∉ s) :
    ∀ (c c' : Cell), c.remove (d.val + 1) = .ok c' → c = .Unsolved s → c' = .Unsolved s := by
  intro c c' hr hc
  subst hc
  have hscr : scrubbed (d.val + 1) (Cell.Unsolved s) := by
    refine ⟨?_, fun s0 hs0 => by cases hs0; omega⟩
    rw [Cell.digits, digit_image_mem]
    exact hd
  obtain ⟨hb1, hb9⟩ := remove_ok_bounds _ _ _ hr
  rw [scrubbed_remove_id (d.val + 1) _ hb1 hb9 hscr] at hr
  injection hr with h
  exact h.symm

/-- An elimination round for a pair whose digits are disjoint from `s`
preserves `pairInv`. -/
theorem pairInv_preserved_by_fire (g : List Nat)
    (p1 p2 : Nat) (s : Finset (Fin 9)) (hcard : s.card = 2)
    (t : Finset (Fin 9)) (hdisj : ∀ d ∈ t, d ∉ s)
    (idx1 idx2 : Nat) (cs cs' : List Cell)
    (hInv : pairInv g p1 p2 s cs)
    (h : pairEliminate g t idx1 idx2 cs = .ok cs') :
    pairInv g p1 p2 s cs' := by
  obtain ⟨hInvA, hInvB, hInvC⟩ := hInv
  refine ⟨?_, ?_, ?_⟩
  · exact pairEliminate_preserves_at (fun c => c = .Unsolved s) g t idx1 idx2 cs cs' _
      (fun d hd c c' hr hc => remove_keeps_pair_cell s hcard d (hdisj d hd) c c' hr hc)
      h hInvA
  · exact pairEliminate_preserves_at (fun c => c = .Unsolved s) g t idx1 idx2 cs cs' _
      (fun d hd c c' hr hc => remove_keeps_pair_cell s hcard d (hdisj d hd) c c' hr hc)
      h hInvB
  · intro i hi hip1 hip2
    exact pairEliminate_preserves_at
      (fun c => ∀ d ∈ s, (d.val + 1) ∉ Cell.digits c) g t idx1 idx2 cs cs' _
      (fun e he c c' hr hP d hd hmem => hP d hd (remove_digits_subset c _ c' hr hmem))
      h (hInvC i hi hip1 hip2)

/-- Under `pairInv`, a scan step comparing against the pair set itself
never fires at a non-pair position. -/
theorem pairScanStep_s_no_fire (g : List Nat) (p1 p2 : Nat)
    (s : Finset (Fin 9)) (hcard : s.card = 2) (x idx2 : Nat)
    (hx2 : idx2 ≠ p1) (hx2' : idx2 ≠ p2) (hx9 : idx2 < 9)
    (bb bb' : List Cell) (hInv : pairInv g p1 p2 s bb) :
    pairScanStep g s x bb idx2 = .ok bb' → bb' = bb := by
  intro h
  rw [pairScanStep] at h
  by_cases hfire : cellAt bb (g.getD idx2 0) = .Unsolved s
  · exfalso
    obtain ⟨d0, hd0⟩ := Finset.card_pos.mp (by omega : 0 < s.card)
    have hnot := hInv.2.2 idx2 hx9 hx2 hx2' d0 hd0
    rw [hfire, Cell.digits] at hnot
    exact hnot ((digit_image_mem s d0).mpr hd0)
  · rw [if_neg hfire] at h
    injection h with h'
    exact h'.symm

/-- After the pair's own group position has been handled, every later
`npStep` of the group pass preserves `pairInv`. -/
theorem npStep_preserves_pairInv (g : List Nat) (hg : g ∈ all_groups)
    (p1 p2 : Nat) (hp12 : p1 < p2) (hp2 : p2 < 9)
    (s : Finset (Fin 9)) (hcard : s.card = 2)
    (idx1 : Nat) (hgt : p1 < idx1) (hlt : idx1 < 8) :
    ∀ cs cs', cs.length = 81 → pairInv g p1 p2 s cs →
      npStep g cs idx1 = .ok cs' → pairInv g p1 p2 s cs' ∧ cs'.length = 81 := by
  intro cs cs' hlen hInv hstep
  rcases hc : cellAt cs (g.getD idx1 0) with dd | t
  · simp only [npStep, hc] at hstep
    cases hstep
    exact ⟨hInv, hlen⟩
  · simp only [npStep, hc] at hstep
    by_cases hc2 : t.card = 2
    swap
    · rw [if_neg hc2] at hstep
      cases hstep
      exact ⟨hInv, hlen⟩
    rw [if_pos hc2] at hstep
    have hidx1p1 : idx1 ≠ p1 := by omega
    by_cases hp2eq : idx1 = p2
    · -- the scanned cell is the second pair cell: the stale set is `s`
      -- and, under the invariant, no later cell can still equal it.
      have ht : t = s := by
        have hb := hInv.2.1
        rw [← hp2eq, hc] at hb
        injection hb with hb'
      subst ht
      refine foldlM_preserves (pairScanStep g t idx1)
        (fun x => pairInv g p1 p2 t x ∧ x.length = 81) _ cs cs'
        (fun bb idx2 bb' hidx2 hbb hstep2 => ?_) hstep ⟨hInv, hlen⟩
      have hrange := List.mem_range'_1.mp hidx2
      have hbb' : bb' = bb := pairScanStep_s_no_fire g p1 p2 t hcard idx1 idx2
        (by omega) (by omega) (by omega) bb bb' hbb.1 hstep2
      rw [hbb']
      exact hbb
    · -- the stale set `t` belongs to a non-pair cell: its digits avoid `s`.
      have hdisj : ∀ d ∈ t, d ∉ s := by
        intro d hdt hds
        have hnot := hInv.2.2 idx1 (by omega) hidx1p1 hp2eq d hds
        rw [hc, Cell.digits] at hnot
        exact hnot ((digit_image_mem t d).mpr hdt)
      refine foldlM_preserves (pairScanStep g t idx1)
        (fun x => pairInv g p1 p2 s x ∧ x.length = 81) _ cs cs'
        (fun bb idx2 bb' hidx2 hbb hstep2 => ?_) hstep ⟨hInv, hlen⟩
      have hrange := List.mem_range'_1.mp hidx2
      rw [pairScanStep] at hstep2
      by_cases hfire : cellAt bb (g.getD idx2 0) = .Unsolved t
      · rw [if_pos hfire] at hstep2
        have hi2p2 : idx2 ≠ p2 := by
          intro hh
          have hb := hbb.1.2.1
          rw [← hh, hfire] at hb
          injection hb with hb'
          obtain ⟨d0, hd0⟩ := Finset.card_pos.mp (by omega : 0 < s.card)
          exact hdisj d0 (hb' ▸ hd0) hd0
        exact ⟨pairInv_preserved_by_fire g p1 p2 s hcard t hdisj idx1 idx2 bb bb'
            hbb.1 hstep2,
          (pairEliminate_length g t idx1 idx2 bb bb' hstep2).trans hbb.2⟩
      · rw [if_neg hfire] at hstep2
        cases hstep2
        exact hbb

/-- Processing the group position holding the first pair cell fires the
elimination and establishes `pairInv`:  the scan skips the positions
before `p2` (no other cell equals the pair), fires at `p2`, and cannot
fire again afterwards. -/
theorem npStep_fires_at_p1 (g : List Nat) (hg : g ∈ all_groups)
    (p1 p2 : Nat) (hp12 : p1 < p2) (hp2 : p2 < 9)
    (s : Finset (Fin 9)) (hcard : s.card = 2)
    (cells m2 : List Cell) (hlen : cells.length = 81)
    (h1 : cellAt cells (g.getD p1 0) = .Unsolved s)
    (h2 : cellAt cells (g.getD p2 0) = .Unsolved s)
    (honly : ∀ j, j < 9 → ∀ i, i < j → ¬(i = p1 ∧ j = p2) →
      ∀ t : Finset (Fin 9), t.card = 2 →
        ¬(cellAt cells (g.getD i 0) = .Unsolved t ∧
          cellAt cells (g.getD j 0) = .Unsolved t)) :
    npStep g cells p1 = .ok m2 → pairInv g p1 p2 s m2 ∧ m2.length = 81 := by
  intro hstep
  simp only [npStep, h1] at hstep
  rw [if_pos hcard] at hstep
  have e1 : p1 + 1 + (p2 - p1 - 1) = p2 := by omega
  have hsplit := range'_split (p1 + 1) (p2 - p1 - 1) (8 - p1) (by omega)
  rw [e1] at hsplit
  have e2 : 8 - p1 - (p2 - p1 - 1) - 1 = 8 - p2 := by omega
  rw [e2] at hsplit
  rw [pairScan, hsplit] at hstep
  obtain ⟨m1, hpre, hrest⟩ := foldlM_append_ok _ _ _ _ _ hstep
  have hpreid : (List.range' (p1 + 1) (p2 - p1 - 1)).foldlM (pairScanStep g s p1) cells
      = .ok cells := by
    apply foldlM_id
    intro idx2 hidx2
    have hrange := List.mem_range'_1.mp hidx2
    rw [pairScanStep, if_neg]
    intro hfire
    exact honly idx2 (by omega) p1 (by omega) (fun hh => by omega) s hcard ⟨h1, hfire⟩
  have hm1 : m1 = cells := by
    rw [hpreid] at hpre
    injection hpre with h'
    exact h'.symm
  rw [hm1] at hrest
  obtain ⟨m3, hfire2, hD⟩ := foldlM_cons_ok _ _ _ _ _ hrest
  rw [pairScanStep, if_pos h2] at hfire2
  have hm3len : m3.length = 81 := (pairEliminate_length g s p1 p2 cells m3 hfire2).trans hlen
  have hInv3 : pairInv g p1 p2 s m3 := by
    refine ⟨?_, ?_, ?_⟩
    · rw [pairEliminate_keeps_exempt g hg s p1 p2 (by omega) (by omega) cells m3 p1
        (Or.inl rfl) hfire2]
      exact h1
    · rw [pairEliminate_keeps_exempt g hg s p1 p2 (by omega) (by omega) cells m3 p2
        (Or.inr rfl) hfire2]
      exact h2
    · intro i hi hip1 hip2 d hd
      exact (pairEliminate_scrubs g hg s p1 p2 cells m3 hlen i hi hip1 hip2 hfire2 d hd).1
  refine foldlM_preserves (pairScanStep g s p1)
    (fun x => pairInv g p1 p2 s x ∧ x.length = 81) _ m3 m2
    (fun bb idx2 bb' hidx2 hbb hstep2 => ?_) hD ⟨hInv3, hm3len⟩
  have hrange := List.mem_range'_1.mp hidx2
  have hbb' : bb' = bb := pairScanStep_s_no_fire g p1 p2 s hcard p1 idx2
    (by omega) (by omega) (by omega) bb bb' hbb.1 hstep2
  rw [hbb']
  exact hbb

/-- C3, amended: the naked-pair guarantee holds for the processing of a
single group.  If a group of the board has exactly two cells holding an
identical 2-candidate set (and no other two of its cells share an
identical 2-candidate set), and the group's pass completes without an
elimination error, then the pass removes both pair digits from every
other cell of the group and leaves the two pair cells unchanged.  Over
the full 27-group `NakedPair::apply` the original claim fails: a pair
in another group may modify the pair cells or destroy the pair before
its group is scanned (see the counterexample). -/
theorem c3_processGroup_naked_pair (cells cells' : List Cell)
    (hlen : cells.length = 81) (g : List Nat) (hg : g ∈ all_groups)
    (p1 p2 : Nat) (hp12 : p1 < p2) (hp2 : p2 < 9)
    (s : Finset (Fin 9)) (hcard : s.card = 2)
    (h1 : cellAt cells (g.getD p1 0) = .Unsolved s)
    (h2 : cellAt cells (g.getD p2 0) = .Unsolved s)
    (honly : ∀ j, j < 9 → ∀ i, i < j → ¬(i = p1 ∧ j = p2) →
      ∀ t : Finset (Fin 9), t.card = 2 →
        ¬(cellAt cells (g.getD i 0) = .Unsolved t ∧
          cellAt cells (g.getD j 0) = .Unsolved t))
    (hok : processGroup cells g = .ok cells') :
    cellAt cells' (g.getD p1 0) = .Unsolved s ∧
    cellAt cells' (g.getD p2 0) = .Unsolved s ∧
    ∀ i, i < 9 → i ≠ p1 → i ≠ p2 →
      ∀ d ∈ s, (d.val + 1) ∉ Cell.digits (cellAt cells' (g.getD i 0)) := by
  rw [processGroup, range_split p1 8 (by omega)] at hok
  obtain ⟨m1, hpre, hrest⟩ := foldlM_append_ok _ _ _ _ _ hok
  have hpreid : (List.range p1).foldlM (npStep g) cells = .ok cells := by
    apply foldlM_id
    intro idx1 hidx1
    have hidx1p1 := List.mem_range.mp hidx1
    rcases hc : cellAt cells (g.getD idx1 0) with dd | t
    · simp only [npStep, hc]
    · simp only [npStep, hc]
      by_cases hc2 : t.card = 2
      swap
      · rw [if_neg hc2]
      rw [if_pos hc2]
      apply foldlM_id
      intro idx2 hidx2
      have hrange := List.mem_range'_1.mp hidx2
      rw [pairScanStep, if_neg]
      intro hfire
      exact honly idx2 (by omega) idx1 (by omega) (fun hh => by omega) t hc2 ⟨hc, hfire⟩
  have hm1 : m1 = cells := by
    rw [hpreid] at hpre
    injection hpre with h'
    exact h'.symm
  rw [hm1] at hrest
  obtain ⟨m2, hstepp1, hB⟩ := foldlM_cons_ok _ _ _ _ _ hrest
  obtain ⟨hInv2, hlen2⟩ := npStep_fires_at_p1 g hg p1 p2 hp12 hp2 s hcard cells m2
    hlen h1 h2 honly hstepp1
  have hfinal : pairInv g p1 p2 s cells' ∧ cells'.length = 81 := by
    refine foldlM_preserves (npStep g)
      (fun x => pairInv g p1 p2 s x ∧ x.length = 81) _ m2 cells'
      (fun bb idx1 bb' hidx1 hbb hstep => ?_) hB ⟨hInv2, hlen2⟩
    have hrange := List.mem_range'_1.mp hidx1
    exact npStep_preserves_pairInv g hg p1 p2 hp12 hp2 s hcard idx1
      (by omega) (by omega) bb bb' hbb.2 hbb.1 hstep
  exact ⟨hfinal.1.1, hfinal.1.2.1, hfinal.1.2.2⟩

set_option synthInstance.maxSize 2000 in
set_option maxRecDepth 40000 in
/-- C3 amended, witness: on a board whose row 0 holds the lone naked
pair `{1,2}` at positions 0 and 1, the row pass keeps the pair cells
and scrubs both digits from the other seven cells. -/
theorem c3_processGroup_naked_pair_witness :
    cellAt pairCellsResult (rowGroup.getD 0 0) = .Unsolved {0, 1} ∧
    cellAt pairCellsResult (rowGroup.getD 1 0) = .Unsolved {0, 1} ∧
    ∀ i, i < 9 → i ≠ 0 → i ≠ 1 →
      ∀ d ∈ ({0, 1} : Finset (Fin 9)),
        (d.val + 1) ∉ Cell.digits (cellAt pairCellsResult (rowGroup.getD i 0)) :=
  c3_processGroup_naked_pair pairCells pairCellsResult (by decide) rowGroup (by decide)
    0 1 (by decide) (by decide) {0, 1} (by decide) (by decide) (by decide)
    (by decide) (by decide)


/-- C1: the claim (and the spec) say the character '0' parses to a
fresh fully-open `Unsolved` cell, and that parsing never produces a
`Solved` cell holding a digit outside `[1,9]`.  The code disagrees:
`From<char>` matches `'0'..='9'`, so '0' becomes `Solved(0)` — an
out-of-range solved digit — as this evaluation of the embedded code
shows on an 81-character input whose first character is '0'.  The
spec is clearly the intent ('0' is the standard blank marker, and
`Cell::from_digits` asserts digits lie in `[1,9]`), so this is a bug
in the code. -/
theorem c1_zero_char_solved_zero :
    Cell.fromChar '0' = Cell.Solved 0 ∧
    Cell.fromChar '0' ≠ Cell.new ∧
    Board.from_str zeroStr = .ok zeroBoard ∧
    cellAt zeroBoard.cells 0 = Cell.Solved 0 := by
  refine ⟨by decide, by decide, by decide, by decide⟩

/-- C4: the naked-pair scenario.  Parsing the given 81-character string
succeeds; `RemoveSolvedFromNeighbors` leaves cells 72,73,78,79 with
candidate sets `{1,3,6,9}`, `{1,5}`, `{1,5}`, `{1,6}`; `NakedPair` then
reduces cell 72 to `{3,6,9}` and solves cell 79 to 6, leaving cells 73
and 78 unchanged. -/
theorem c4_naked_pair_scenario :
    Board.from_str scenarioStr = .ok scenarioBoard ∧
    RemoveSolvedFromNeighbors.apply scenarioBoard = .ok scenarioRSN ∧
    Cell.digits (cellAt scenarioRSN.cells 72) = ({1, 3, 6, 9} : Finset Nat) ∧
    Cell.digits (cellAt scenarioRSN.cells 73) = ({1, 5} : Finset Nat) ∧
    Cell.digits (cellAt scenarioRSN.cells 78) = ({1, 5} : Finset Nat) ∧
    Cell.digits (cellAt scenarioRSN.cells 79) = ({1, 6} : Finset Nat) ∧
    NakedPair.apply scenarioRSN = .ok scenarioNP ∧
    Cell.digits (cellAt scenarioNP.cells 72) = ({3, 6, 9} : Finset Nat) ∧
    cellAt scenarioNP.cells 79 = Cell.Solved 6 ∧
    cellAt scenarioNP.cells 73 = cellAt scenarioRSN.cells 73 ∧
    cellAt scenarioNP.cells 78 = cellAt scenarioRSN.cells 78 := by
  decide

/-- C5: for every board index, `all_neighbors` has exactly 20 distinct
entries and is, as a set, the union of the row, column and box
neighbors, each of which has exactly 8 entries; row and column
neighbors never overlap. -/
theorem c5_all_neighbors_spec :
    ∀ idx : Fin 81,
      (all_neighbors idx.val).length = 20 ∧
      (all_neighbors idx.val).Nodup ∧
      (row_neighbors idx.val).length = 8 ∧
      (column_neighbors idx.val).length = 8 ∧
      (box_neighbors idx.val).length = 8 ∧
      (∀ n ∈ all_neighbors idx.val,
        n ∈ row_neighbors idx.val ∨ n ∈ column_neighbors idx.val ∨
          n ∈ box_neighbors idx.val) ∧
      (∀ n ∈ row_neighbors idx.val ++ column_neighbors idx.val ++ box_neighbors idx.val,
        n ∈ all_neighbors idx.val) ∧
      (∀ n ∈ row_neighbors idx.val, n ∉ column_neighbors idx.val) := by
  decide

/-- C2, counterexample: the claim says applying either strategy is
total and never fails on any board, but `RemoveSolvedFromNeighbors`
fails (the Rust code panics on an `unwrap`) on a board with the same
solved digit in two neighboring cells, and `NakedPair` fails on a board
with three identical 2-candidate cells in one row. -/
theorem c2_apply_can_fail_cex :
    exceptIsErr (RemoveSolvedFromNeighbors.apply dupSolvedBoard) = true ∧
    exceptIsErr (NakedPair.apply triplePairBoard) = true := by
  decide

/-- C3, counterexample: row 0 of `crossPairBoard` has exactly two cells
(indices 0 and 1) that are `Unsolved` with the identical 2-candidate
set `{1,2}`, yet after `NakedPair::apply` those two pair cells do not
keep their candidate set: a second naked pair in column 0 (and box 0)
eliminates digit 1 from them, leaving both `Solved(2)`. -/
theorem c3_pair_cells_not_preserved_cex :
    cellAt crossPairBoard.cells 0 = Cell.Unsolved {0, 1} ∧
    cellAt crossPairBoard.cells 1 = Cell.Unsolved {0, 1} ∧
    ({0, 1} : Finset (Fin 9)).card = 2 ∧
    ((List.range 9).filter
      (fun i => cellAt crossPairBoard.cells i = Cell.Unsolved {0, 1})).length = 2 ∧
    all_groups.getD 0 [] = [0, 1, 2, 3, 4, 5, 6, 7, 8] ∧
    NakedPair.apply crossPairBoard = .ok crossPairResult ∧
    cellAt crossPairResult.cells 0 = Cell.Solved 2 ∧
    cellAt crossPairResult.cells 1 = Cell.Solved 2 := by
  decide

/-- C9, counterexample: the claim says parsing succeeds for every
string of exactly 81 characters, but Rust's `s.len()` counts UTF-8
bytes: an 81-character string of two-byte characters has byte length
162 and is rejected with the parse error. -/
theorem c9_81_chars_rejected_cex :
    multibyteStr.length = 81 ∧
    Board.from_str multibyteStr = .parseError := by
  decide

/-- C5 witness: the neighbor counts at board index 14. -/
theorem c5_all_neighbors_spec_witness :
    (all_neighbors (14 : Fin 81).val).length = 20 ∧
    (row_neighbors (14 : Fin 81).val).length = 8 :=
  ⟨(c5_all_neighbors_spec 14).1, (c5_all_neighbors_spec 14).2.2.1⟩

/-- C9 amended, witness: the 81 ASCII characters of the naked-pair
scenario string parse into a full 81-cell board. -/
theorem c9_from_str_amended_witness :
    ∃ b : Board, Board.from_str scenarioStr = .ok b ∧ b.cells.length = 81 :=
  c9_from_str_amended.2.1 scenarioStr (by decide) (by decide)

end Sudoku
